import Mathlib

/-!
Verification of the PRMS channel-routing engine
(`src/pynhm/hydrology/PRMSChannel.py`, class `PRMSChannel`).

The development shallowly embeds the pieces of the module that the claims
are about:

* the Muskingum-Mann routing kernel `_muskingum_mann_numpy` (lines 481-616),
  embedded over exact rationals; the floating-point value NaN, which the
  module uses as the "uninitialized" marker for `_seg_inflow0`, is modelled
  separately by the two-constructor type `RVal` where it matters;
* the per-step driver `_calculate` (lateral aggregation lines 336-358,
  kernel dispatch on `calc_method` lines 361-469) and `_advance_variables`
  (lines 312-318);
* the channel preconditioner `_initialize_channel_data` (lines 182-310):
  connectivity/topological order, Kcoef clamping, the ts/tsi banding table,
  the Muskingum coefficients with their two non-negativity corrections, and
  the `_seg_inflow` seeding loop.

Python's `%` on integers is floor-mod, so the kernel's sub-step test
`(ihr + 1) % tsi[jseg] == 0` is embedded with `Int.fmod` (for the divisor
`-1` every convention gives remainder `0`).

The bank-full velocity (line 214) is
`(1/mann_n) * sqrt(seg_slope) * seg_depth**(2/3) * 3600`; `sqrt` and the
`2/3` power are irrational-valued, so the velocity is treated as an input
value `v` here and every statement about the preconditioner is proved for
all values of `v`, which covers the value the code computes (a NaN velocity,
arising from `sqrt` of a negative slope, fails the `velocity > 0` test
exactly as every `v ≤ 0` does, so it is covered by that case).
-/

/-- A double that is either NaN or an exact value.  Used to model the
day-initialization expression `seg_inflow0 * zero` of the kernel (lines
529-533), whose input `_seg_inflow0` is documented to start as NaN. -/
inductive RVal where
  | nan : RVal
  | fin : ℚ → RVal
deriving DecidableEq

/-- IEEE multiplication on `RVal`: any product with NaN is NaN. -/
def RVal.mul : RVal → RVal → RVal
  | RVal.nan, _ => RVal.nan
  | _, RVal.nan => RVal.nan
  | RVal.fin a, RVal.fin b => RVal.fin (a * b)

/-- The kernel's per-day accumulator initialization, line 529 and the
following lines: `seg_inflow = seg_inflow0 * zero` (and identically for
`seg_outflow`, `inflow_ts`, `seg_current_sum`). -/
def dayInit (x : RVal) : RVal := RVal.mul x (RVal.fin 0)

/-- The arrays `_muskingum_mann_numpy` receives besides the two persistent
state arrays: connectivity, lateral inflow and the preconditioned
per-segment routing parameters (kernel signature, lines 482-492). -/
structure MuskParams where
  to_segment : ℕ → ℤ
  seg_lateral_inflow : ℕ → ℚ
  tsi : ℕ → ℤ
  ts : ℕ → ℚ
  c0 : ℕ → ℚ
  c1 : ℕ → ℚ
  c2 : ℕ → ℚ

/-- The mutable arrays of the routing kernel; these are exactly the seven
arrays the kernel returns (lines 608-616).  `seg_outflow0` is computed by
the kernel but dropped by every caller, so it is not carried here. -/
structure MuskState where
  seg_inflow0 : ℕ → ℚ
  outflow_ts : ℕ → ℚ
  seg_inflow : ℕ → ℚ
  seg_outflow : ℕ → ℚ
  inflow_ts : ℕ → ℚ
  seg_current_sum : ℕ → ℚ
  seg_upstream_inflow : ℕ → ℚ

/-- Inner-loop body, part 1 (lines 542-553): the segment's current inflow
is lateral plus upstream, and it is accumulated into `seg_inflow`,
`inflow_ts` and (the upstream part only) `seg_current_sum`. -/
def accumPhase (p : MuskParams) (st : MuskState) (j : ℕ) : MuskState :=
  let q := p.seg_lateral_inflow j + st.seg_upstream_inflow j
  { st with
    seg_inflow := Function.update st.seg_inflow j (st.seg_inflow j + q)
    inflow_ts := Function.update st.inflow_ts j (st.inflow_ts j + q)
    seg_current_sum :=
      Function.update st.seg_current_sum j
        (st.seg_current_sum j + st.seg_upstream_inflow j) }

/-- Inner-loop body, part 2 (lines 555-582): when the hour closes one of the
segment's sub-steps (`(ihr + 1) % tsi == 0`, Python floor-mod), average the
accumulated inflow over `ts`, apply the Muskingum recurrence (or pass the
average through when `tsi = -1`), record the average as the previous inflow
and reset the accumulator. -/
def routePhase (p : MuskParams) (ihr : ℕ) (st : MuskState) (j : ℕ) : MuskState :=
  if Int.fmod ((ihr : ℤ) + 1) (p.tsi j) = 0 then
    let avg := st.inflow_ts j / p.ts j
    let out :=
      if 0 < p.tsi j then
        avg * p.c0 j + st.seg_inflow0 j * p.c1 j + st.outflow_ts j * p.c2 j
      else avg
    { st with
      outflow_ts := Function.update st.outflow_ts j out
      seg_inflow0 := Function.update st.seg_inflow0 j avg
      inflow_ts := Function.update st.inflow_ts j 0 }
  else st

/-- Inner-loop body, part 3 (lines 590-602): accumulate the hourly outflow
into the daily total and deposit it on the downstream segment when there is
one. -/
def emitPhase (p : MuskParams) (st : MuskState) (j : ℕ) : MuskState :=
  let st1 :=
    { st with
      seg_outflow :=
        Function.update st.seg_outflow j (st.seg_outflow j + st.outflow_ts j) }
  if 0 ≤ p.to_segment j then
    let t := (p.to_segment j).toNat
    { st1 with
      seg_upstream_inflow :=
        Function.update st1.seg_upstream_inflow t
          (st1.seg_upstream_inflow t + st1.outflow_ts j) }
  else st1

/-- One iteration of the inner segment loop (lines 538-602). -/
def segStep (p : MuskParams) (ihr : ℕ) (st : MuskState) (j : ℕ) : MuskState :=
  emitPhase p (routePhase p ihr (accumPhase p st j) j) j

/-- One hourly tick (lines 535-602): rebuild the upstream buffer as
`seg_inflow * zero` and walk the segments in routing order. -/
def hourStep (p : MuskParams) (order : List ℕ) (st : MuskState) (ihr : ℕ) :
    MuskState :=
  List.foldl (fun s j => segStep p ihr s j)
    { st with seg_upstream_inflow := fun i => st.seg_inflow i * 0 } order

/-- Day-start state of the kernel (lines 527-533): the persistent arrays
are taken as passed in and every per-day accumulator is initialized as
`seg_inflow0 * zero`. -/
def muskInitState (seg_inflow0 outflow_ts : ℕ → ℚ) : MuskState :=
  { seg_inflow0 := seg_inflow0
    outflow_ts := outflow_ts
    seg_inflow := fun i => seg_inflow0 i * 0
    seg_outflow := fun i => seg_inflow0 i * 0
    inflow_ts := fun i => seg_inflow0 i * 0
    seg_current_sum := fun i => seg_inflow0 i * 0
    seg_upstream_inflow := fun i => seg_inflow0 i * 0 }

/-- The routing kernel `_muskingum_mann_numpy` (lines 481-616): 24 hourly
ticks followed by the daily means (lines 604-606). -/
def muskingumMann (p : MuskParams) (order : List ℕ)
    (seg_inflow0 outflow_ts : ℕ → ℚ) : MuskState :=
  let s := (List.range 24).foldl (hourStep p order)
    (muskInitState seg_inflow0 outflow_ts)
  { s with
    seg_outflow := fun i => s.seg_outflow i / 24
    seg_inflow := fun i => s.seg_inflow i / 24
    seg_upstream_inflow := fun i => s.seg_current_sum i / 24 }

/-- `_advance_variables` (lines 312-318): `_seg_inflow0[:] = _seg_inflow`. -/
def advanceVariables (st : MuskState) : MuskState :=
  { st with seg_inflow0 := st.seg_inflow }

/-- The routing part of `_calculate` (lines 402-443): the kernel is run on
the persistent `_seg_inflow0` and `_outflow_ts` and all seven outputs are
written back to the engine's arrays. -/
def calculateStep (p : MuskParams) (order : List ℕ) (st : MuskState) :
    MuskState :=
  muskingumMann p order st.seg_inflow0 st.outflow_ts

/-- An all-zero engine state, for concrete runs. -/
def zeroState : MuskState :=
  { seg_inflow0 := fun _ => 0
    outflow_ts := fun _ => 0
    seg_inflow := fun _ => 0
    seg_outflow := fun _ => 0
    inflow_ts := fun _ => 0
    seg_current_sum := fun _ => 0
    seg_upstream_inflow := fun _ => 0 }

/-- A two-segment chain `0 → 1` with lateral inflow 1 on segment 0, hourly
stride on both, and coefficients `c1 = 1` on segment 0 and `c0 = 1` on
segment 1, so the inflow seen by segment 1 varies during the day. -/
def cexParams : MuskParams :=
  { to_segment := fun j => if j = 0 then 1 else -1
    seg_lateral_inflow := fun j => if j = 0 then 1 else 0
    tsi := fun _ => 1
    ts := fun _ => 1
    c0 := fun j => if j = 0 then 0 else 1
    c1 := fun j => if j = 0 then 1 else 0
    c2 := fun _ => 0 }

/-- State of the lateral-flow aggregation loop of `_calculate` (lines
336-358): the per-segment lateral inflow being built and the three
caller-supplied per-HRU volume arrays (which the loop mutates for
unmapped HRUs). -/
structure LateralState where
  seg_lateral_inflow : ℕ → ℚ
  sroff_vol : ℕ → ℚ
  ssres_flow_vol : ℕ → ℚ
  gwres_flow_vol : ℕ → ℚ

/-- One iteration of the HRU loop (lines 339-358): an HRU with
`hru_segment < 0` has its three input entries zeroed and is skipped;
otherwise its summed volume divided by `s_per_time` is added to its
segment's lateral inflow. -/
def lateralStep (s_per_time : ℚ) (hru_segment : ℕ → ℤ)
    (st : LateralState) (ihru : ℕ) : LateralState :=
  let iseg := hru_segment ihru
  if iseg < 0 then
    { st with
      sroff_vol := Function.update st.sroff_vol ihru 0
      ssres_flow_vol := Function.update st.ssres_flow_vol ihru 0
      gwres_flow_vol := Function.update st.gwres_flow_vol ihru 0 }
  else
    let lateral_inflow :=
      (st.sroff_vol ihru + st.ssres_flow_vol ihru + st.gwres_flow_vol ihru) /
        s_per_time
    { st with
      seg_lateral_inflow :=
        Function.update st.seg_lateral_inflow iseg.toNat
          (st.seg_lateral_inflow iseg.toNat + lateral_inflow) }

/-- The whole lateral aggregation (lines 338-358): `seg_lateral_inflow` is
zeroed, then the HRU loop runs over `0 .. nhru - 1`. -/
def lateralAggregate (nhru : ℕ) (s_per_time : ℚ) (hru_segment : ℕ → ℤ)
    (sroff ssres gw : ℕ → ℚ) : LateralState :=
  (List.range nhru).foldl (lateralStep s_per_time hru_segment)
    { seg_lateral_inflow := fun _ => 0
      sroff_vol := sroff
      ssres_flow_vol := ssres
      gwres_flow_vol := gw }

/-- The Kcoef computation (lines 234-243) for one segment: 24 by default,
`seg_length / velocity` where the velocity is positive, 24 for lakes, then
clamped into `[0.01, 24]`. -/
def kcoefOf (v seg_length : ℚ) (isLake : Bool) : ℚ :=
  let k0 : ℚ := if 0 < v then seg_length / v else 24
  let k1 : ℚ := if isLake then 24 else k0
  let k2 : ℚ := if k1 < 1 / 100 then 1 / 100 else k1
  if 24 < k2 then 24 else k2

/-- The `ts` half of the banding table (lines 249-276); the `k < 1` branch
leaves `ts` at its initialized value `1.0`. -/
def tsOf (k : ℚ) : ℚ :=
  if k < 1 then 1
  else if k < 2 then 1
  else if k < 3 then 2
  else if k < 4 then 3
  else if k < 6 then 4
  else if k < 8 then 6
  else if k < 12 then 8
  else if k < 24 then 12
  else 24

/-- The `tsi` half of the banding table (lines 249-276). -/
def tsiOf (k : ℚ) : ℤ :=
  if k < 1 then -1
  else if k < 2 then 1
  else if k < 3 then 2
  else if k < 4 then 3
  else if k < 6 then 4
  else if k < 8 then 6
  else if k < 12 then 8
  else if k < 24 then 12
  else 24

/-- The Muskingum denominator with its degeneracy guard (lines 278-279):
`d = K - K x + ts/2`, replaced by `1e-4` when `|d| < 1e-6`. -/
def muskD (k x t : ℚ) : ℚ :=
  let d := k - k * x + t / 2
  if |d| < 1 / 1000000 then 1 / 10000 else d

/-- `c0` before correction (line 280). -/
def muskC0 (k x t : ℚ) : ℚ := (-(k * x) + t / 2) / muskD k x t

/-- `c1` before correction (line 281). -/
def muskC1 (k x t : ℚ) : ℚ := (k * x + t / 2) / muskD k x t

/-- `c2` before correction (lines 282-284). -/
def muskC2 (k x t : ℚ) : ℚ := (k - k * x - t / 2) / muskD k x t

/-- The two non-negativity corrections in source order (lines 286-294):
first wherever `c2 < 0` fold it into `c1`, then wherever `c0 < 0` fold it
into `c1`. -/
def correctCoeffs (c : ℚ × ℚ × ℚ) : ℚ × ℚ × ℚ :=
  let c0 := c.1
  let c1 := c.2.1
  let c2 := c.2.2
  let p : ℚ × ℚ := if c2 < 0 then (c1 + c2, 0) else (c1, c2)
  if c0 < 0 then (0, p.1 + c0, p.2) else (c0, p.1, p.2)

/-- Complete coefficient pipeline for one segment: Kcoef from velocity and
length, `ts` from the band, raw coefficients, corrections. -/
def segmentCoeffs (v len x : ℚ) (isLake : Bool) : ℚ × ℚ × ℚ :=
  let k := kcoefOf v len isLake
  let t := tsOf k
  correctCoeffs (muskC0 k x t, muskC1 k x t, muskC2 k x t)

/-- Kernel parameters as produced by `_initialize_channel_data` from the
per-segment velocity, length, weighting coefficient and lake flag. -/
def routedParams (toSeg : ℕ → ℤ) (lat v len x : ℕ → ℚ) (lake : ℕ → Bool) :
    MuskParams :=
  { to_segment := toSeg
    seg_lateral_inflow := lat
    tsi := fun j => tsiOf (kcoefOf (v j) (len j) (lake j))
    ts := fun j => tsOf (kcoefOf (v j) (len j) (lake j))
    c0 := fun j => (segmentCoeffs (v j) (len j) (x j) (lake j)).1
    c1 := fun j => (segmentCoeffs (v j) (len j) (x j) (lake j)).2.1
    c2 := fun j => (segmentCoeffs (v j) (len j) (x j) (lake j)).2.2 }

/-- The values `tsi` can take after preconditioning. -/
def tsiValues : List ℤ := [-1, 1, 2, 3, 4, 6, 8, 12, 24]

/-- The two ways channel construction can raise: networkx's unfeasible
topological sort on a cyclic graph (line 208), and numpy's IndexError when
the seeding loop (lines 304-308) writes past the end of `_seg_inflow`. -/
inductive ChannelError where
  | cycleError : ChannelError
  | indexError : ChannelError
deriving DecidableEq

/-- Whether an `Except` result is a success. -/
def exOk {α : Type} : Except ChannelError α → Bool
  | Except.ok _ => true
  | Except.error _ => false

/-- The connectivity edge list (lines 191-202): one edge
`(iseg, tosegment[iseg])` for every segment whose rebased downstream index
is non-negative (out-of-range targets are included, as in the source). -/
def edgesOf (n : ℕ) (to0 : ℕ → ℤ) : List (ℕ × ℕ) :=
  (List.range n).filterMap fun i =>
    if 0 ≤ to0 i then some (i, (to0 i).toNat) else none

/-- The vertex set of the graph networkx builds from the edge list: exactly
the endpoints of edges (a segment with no incident edge is not a node of
the graph). -/
def nodeList (edges : List (ℕ × ℕ)) : List ℕ :=
  (edges.flatMap fun e => [e.1, e.2]).dedup

/-- A vertex of `rem` with no incoming edge from inside `rem`, if any. -/
def readyNode (edges : List (ℕ × ℕ)) (rem : List ℕ) : Option ℕ :=
  rem.find? fun u => decide (∀ e ∈ edges, e.2 = u → e.1 ∉ rem)

/-- Kahn's algorithm, modelling `nx.topological_sort`: repeatedly output a
vertex with no incoming edge among the remaining vertices; fail (as the
networkx generator does) when none exists while vertices remain. -/
def topoGo (edges : List (ℕ × ℕ)) : ℕ → List ℕ → Option (List ℕ)
  | 0, rem => if rem.isEmpty then some [] else none
  | fuel + 1, rem =>
    if rem.isEmpty then some []
    else
      match readyNode edges rem with
      | none => none
      | some u => (topoGo edges fuel (rem.erase u)).map (u :: ·)

/-- Topological sort of the graph spanned by an edge list. -/
def topoSort (edges : List (ℕ × ℕ)) : Option (List ℕ) :=
  topoGo edges (nodeList edges).length (nodeList edges)

/-- `segment_order` (lines 204-211): the topological sort of the edge
graph when `nsegment > 1`, and the fixed order `[0]` otherwise. -/
def segmentOrderOpt (n : ℕ) (to0 : ℕ → ℤ) : Option (List ℕ) :=
  if 1 < n then topoSort (edgesOf n to0) else some [0]

/-- `segment_order` from the raw 1-based `tosegment` parameter (the
rebasing on line 187). -/
def segmentOrderRaw (n : ℕ) (toRaw : ℕ → ℤ) : Option (List ℕ) :=
  segmentOrderOpt n fun i => toRaw i - 1

/-- Acyclicity of an edge list: some ranking strictly increases along every
edge.  For a finite graph this is equivalent to having no directed cycle. -/
def EdgeAcyclic (edges : List (ℕ × ℕ)) : Prop :=
  ∃ f : ℕ → ℕ, ∀ e ∈ edges, f e.1 < f e.2

/-- The `_seg_inflow` seeding loop (lines 303-308) with numpy's bounds
check: for each segment in index order, assign (not accumulate) its
outflow-so-far to its downstream segment's inflow; an index at or past
`nsegment` raises. -/
def seedSegInflow (to0 : ℕ → ℤ) (flow : ℕ → ℚ) (n : ℕ) :
    List ℕ → (ℕ → ℚ) → Except ChannelError (ℕ → ℚ)
  | [], acc => Except.ok acc
  | i :: rest, acc =>
    if to0 i < 0 then seedSegInflow to0 flow n rest acc
    else if (to0 i).toNat < n then
      seedSegInflow to0 flow n rest
        (Function.update acc (to0 i).toNat (flow i))
    else Except.error ChannelError.indexError

/-- The fallible part of `_initialize_channel_data` (lines 182-310): rebase
`tosegment`, compute the segment order (raising on a cyclic graph when
`nsegment > 1`), then run the seeding loop (raising on an out-of-range
downstream index).  The arithmetic in between (velocity, Kcoef, banding,
coefficients) raises no exception and is modelled by the functions above. -/
def initChannelNet (n : ℕ) (toRaw : ℕ → ℤ) (flowInit : ℕ → ℚ) :
    Except ChannelError (List ℕ × (ℕ → ℚ)) :=
  let to0 : ℕ → ℤ := fun i => toRaw i - 1
  match segmentOrderOpt n to0 with
  | none => Except.error ChannelError.cycleError
  | some order =>
    match seedSegInflow to0 flowInit n (List.range n) (fun _ => 0) with
    | Except.error e => Except.error e
    | Except.ok inflow => Except.ok (order, inflow)

/-- What `PRMSChannel.__init__` builds (lines 75-103): the stored
`calc_method` string (stored as given, never validated at construction)
plus the channel data. -/
structure ChannelEngine where
  calc_method : String
  segment_order : List ℕ
  seg_inflow : ℕ → ℚ

/-- Engine construction (lines 75-103): `str(calc_method)` is stored and
`_initialize_channel_data` runs; `calc_method` itself is not inspected. -/
def channelInit (calcMethod : String) (n : ℕ) (toRaw : ℕ → ℤ)
    (flowInit : ℕ → ℚ) : Except ChannelError ChannelEngine :=
  match initChannelNet n toRaw flowInit with
  | Except.error e => Except.error e
  | Except.ok r =>
    Except.ok { calc_method := calcMethod, segment_order := r.1,
                seg_inflow := r.2 }

/-- The numeric kernels the dispatch in `_calculate` can select. -/
inductive KernelTag where
  | numba : KernelTag
  | numpy : KernelTag
  | fortranKernel : KernelTag
deriving DecidableEq

/-- ASCII lower-casing of one character (the strings the dispatch compares
against are ASCII, where Python's `str.lower` acts exactly like this). -/
def charLower (c : Char) : Char :=
  if c.isUpper then Char.ofNat (c.toNat + 32) else c

/-- ASCII lower-casing of a character list. -/
def lowerChars : List Char → List Char
  | [] => []
  | c :: cs => charLower c :: lowerChars cs

/-- `calc_method.lower()`. -/
def strLower (s : String) : String := String.mk (lowerChars s.data)

/-- The `calc_method` dispatch of `_calculate` (lines 361-469): lower-case
comparison against `"numba"`, `["none", "numpy"]` and `"fortran"`; any
other value reaches the final `else` and raises `ValueError` (modelled as
`none`). -/
def selectKernel (m : String) : Option KernelTag :=
  if strLower m = "numba" then some KernelTag.numba
  else if strLower m = "none" ∨ strLower m = "numpy" then some KernelTag.numpy
  else if strLower m = "fortran" then some KernelTag.fortranKernel
  else none

/-- A raw `tosegment` whose rebased form is the self-loop `0 → 0`. -/
def selfLoopRaw : ℕ → ℤ := fun _ => 1

/-- All kernel arrays non-negative. -/
def NonnegState (st : MuskState) : Prop :=
  ∀ j, 0 ≤ st.seg_inflow0 j ∧ 0 ≤ st.outflow_ts j ∧ 0 ≤ st.seg_inflow j ∧
    0 ≤ st.seg_outflow j ∧ 0 ≤ st.inflow_ts j ∧ 0 ≤ st.seg_current_sum j ∧
    0 ≤ st.seg_upstream_inflow j

/-- Non-negative lateral inflow and routing parameters (`ts` and the three
coefficients are non-negative for every preconditioned segment). -/
def NonnegParams (p : MuskParams) : Prop :=
  ∀ j, 0 ≤ p.seg_lateral_inflow j ∧ 0 ≤ p.ts j ∧ 0 ≤ p.c0 j ∧
    0 ≤ p.c1 j ∧ 0 ≤ p.c2 j

/-! ### Day-start initialization (claim C2) -/

/-- C2 counterexample: the kernel initializes the per-day accumulators as
`seg_inflow0 * zero` (line 529), and for the documented initial value NaN
of `seg_inflow0` this is NaN, not zero. -/
theorem dayInit_nan_not_zero : dayInit RVal.nan ≠ RVal.fin 0 := by decide

/-- C2 (amended): the per-day accumulators `seg_inflow`, `seg_outflow`,
`inflow_ts` and `seg_current_sum` are initialized as
`seg_inflow_prev * 0`, which is exactly zero for every finite value of the
incoming persistent state; a NaN entry of `seg_inflow_prev` yields a NaN
accumulator instead. -/
theorem dayInit_zero_of_finite :
    (∀ q : ℚ, dayInit (RVal.fin q) = RVal.fin 0) ∧
    (dayInit RVal.nan = RVal.nan) ∧
    ∀ (f0 o0 : ℕ → ℚ) (i : ℕ),
      (muskInitState f0 o0).seg_inflow i = 0 ∧
      (muskInitState f0 o0).seg_outflow i = 0 ∧
      (muskInitState f0 o0).inflow_ts i = 0 ∧
      (muskInitState f0 o0).seg_current_sum i = 0 := by
  refine ⟨fun q => ?_, rfl, fun f0 o0 i => ?_⟩
  · simp [dayInit, RVal.mul]
  · simp [muskInitState]

/-! ### calc_method handling (claim C9) -/

/-- C9 counterexample: construction succeeds for the unrecognized
calc_method `"bogus"` (the dispatch, which rejects it, only runs inside
`_calculate`). -/
theorem bogus_calc_method_constructs :
    exOk (channelInit "bogus" 1 (fun _ => 0) (fun _ => 0)) = true ∧
    selectKernel "bogus" = none := by
  exact ⟨by decide, by decide⟩

/-- C9 (amended): construction never inspects `calc_method` (it succeeds or
fails independently of it), and the per-step kernel dispatch fails — raising
`ValueError` on the first `_calculate` call — exactly for those values whose
lower-cased form is not one of `"numba"`, `"none"`, `"numpy"`,
`"fortran"`. -/
theorem calc_method_checked_at_dispatch (m : String) :
    (selectKernel m = none ↔
      ¬ (strLower m = "numba" ∨ strLower m = "none" ∨
         strLower m = "numpy" ∨ strLower m = "fortran")) ∧
    ∀ (n : ℕ) (toRaw : ℕ → ℤ) (flowInit : ℕ → ℚ),
      exOk (channelInit m n toRaw flowInit) =
        exOk (channelInit "none" n toRaw flowInit) := by
  constructor
  · simp only [selectKernel]
    split_ifs with h1 h2 h3
    · exact iff_of_false (by simp) fun hc => hc (Or.inl h1)
    · refine iff_of_false (by simp) fun hc => hc ?_
      rcases h2 with h2 | h2
      · exact Or.inr (Or.inl h2)
      · exact Or.inr (Or.inr (Or.inl h2))
    · exact iff_of_false (by simp) fun hc => hc (Or.inr (Or.inr (Or.inr h3)))
    · refine iff_of_true rfl ?_
      rintro (hc | hc | hc | hc)
      · exact h1 hc
      · exact h2 (Or.inl hc)
      · exact h2 (Or.inr hc)
      · exact h3 hc
  · intro n toRaw flowInit
    unfold channelInit
    cases initChannelNet n toRaw flowInit <;> rfl

/-! ### The advance between routing calls (claim C3) -/

set_option maxHeartbeats 3000000 in
/-- C3 counterexample: in a two-segment chain with hourly stride, lateral
inflow 1 on the head segment and `c1 = 1` there (so the head outflow is 0
in hour 0 and 1 afterwards), the routing kernel leaves
`seg_inflow_prev[1] = 1` (its last closed sub-step's averaged inflow) but
the advance replaces it with the daily mean `23/24`, so the next routing
call does not consume the value routing set. -/
theorem advance_discards_routed_inflow_prev :
    (advanceVariables (calculateStep cexParams [0, 1] zeroState)).seg_inflow0 1 ≠
      (calculateStep cexParams [0, 1] zeroState).seg_inflow0 1 := by
  have h1 : (advanceVariables (calculateStep cexParams [0, 1] zeroState)).seg_inflow0 1
      = 23 / 24 := by
    norm_num [advanceVariables, calculateStep, muskingumMann, hourStep, segStep, accumPhase,
      routePhase, emitPhase, muskInitState, cexParams, zeroState, Function.update_apply,
      Int.fmod_one, List.range_succ]
  have h2 : (calculateStep cexParams [0, 1] zeroState).seg_inflow0 1 = 1 := by
    norm_num [calculateStep, muskingumMann, hourStep, segStep, accumPhase,
      routePhase, emitPhase, muskInitState, cexParams, zeroState, Function.update_apply,
      Int.fmod_one, List.range_succ]
  rw [h1, h2]
  norm_num

/-- C3 (amended): the advance between routing calls overwrites
`seg_inflow_prev` with the daily-mean `seg_inflow` of the previous routing
call (the day's accumulated inflow divided by 24), so that mean — not the
last sub-step value the kernel stored — is what the next routing call
consumes. -/
theorem advance_installs_daily_mean_inflow (p : MuskParams) (order : List ℕ)
    (st : MuskState) (j : ℕ) :
    (advanceVariables (calculateStep p order st)).seg_inflow0 j =
      ((List.range 24).foldl (hourStep p order)
        (muskInitState st.seg_inflow0 st.outflow_ts)).seg_inflow j / 24 := rfl

/-! ### The seg_inflow seeding loop (claim C10) -/

/-- Seeding over a concatenation runs the two halves in sequence. -/
theorem seedSegInflow_append (to0 : ℕ → ℤ) (flow : ℕ → ℚ) (n : ℕ)
    (l₁ l₂ : List ℕ) (acc : ℕ → ℚ) :
    seedSegInflow to0 flow n (l₁ ++ l₂) acc =
      (seedSegInflow to0 flow n l₁ acc).bind
        (fun a => seedSegInflow to0 flow n l₂ a) := by
  induction l₁ generalizing acc with
  | nil => simp [seedSegInflow, Except.bind]
  | cons i rest ih =>
    simp only [List.cons_append, seedSegInflow]
    split_ifs <;> simp [ih, Except.bind]

/-- Seeding succeeds exactly when every visited downstream index is in
range. -/
theorem seedSegInflow_isOk (to0 : ℕ → ℤ) (flow : ℕ → ℚ) (n : ℕ) :
    ∀ (l : List ℕ) (acc : ℕ → ℚ),
      exOk (seedSegInflow to0 flow n l acc) = true ↔
        ∀ i ∈ l, to0 i < (n : ℤ) := by
  intro l
  induction l with
  | nil => simp [seedSegInflow, exOk]
  | cons i rest ih =>
    intro acc
    simp only [seedSegInflow, List.mem_cons]
    split_ifs with h1 h2
    · rw [ih]
      constructor
      · intro h
        rintro a (rfl | ha)
        · omega
        · exact h a ha
      · intro h a ha
        exact h a (Or.inr ha)
    · rw [ih]
      constructor
      · intro h
        rintro a (rfl | ha)
        · omega
        · exact h a ha
      · intro h a ha
        exact h a (Or.inr ha)
    · simp only [exOk]
      constructor
      · intro h
        exact (Bool.false_ne_true h).elim
      · intro h
        exfalso
        have := h i (Or.inl rfl)
        omega

/-- Segments that do not drain to `j` never write `seg_inflow[j]`. -/
theorem seedSegInflow_no_touch (to0 : ℕ → ℤ) (flow : ℕ → ℚ) (n j : ℕ) :
    ∀ (l : List ℕ) (acc g : ℕ → ℚ),
      seedSegInflow to0 flow n l acc = Except.ok g →
      (∀ i ∈ l, to0 i ≠ (j : ℤ)) → g j = acc j := by
  intro l
  induction l with
  | nil =>
    intro acc g h _
    simp only [seedSegInflow] at h
    exact (congrFun (Except.ok.inj h) j).symm
  | cons i rest ih =>
    intro acc g h hne
    simp only [seedSegInflow] at h
    split_ifs at h with h1 h2
    · exact ih acc g h fun a ha => hne a (List.mem_cons_of_mem i ha)
    · have hval := ih _ g h fun a ha => hne a (List.mem_cons_of_mem i ha)
      have hj : j ≠ (to0 i).toNat := by
        intro hc
        apply hne i (List.mem_cons_self i rest)
        omega
      rw [hval, Function.update_apply, if_neg hj]

/-- C10: the seeding loop (lines 303-308) assigns, so a segment with
several upstream neighbors keeps only the value written last: the
`segment_flow_init` of the upstream segment with the largest index, not the
sum over all upstream segments. -/
theorem seed_inflow_is_last_assignment (n : ℕ) (to0 : ℕ → ℤ) (flow : ℕ → ℚ)
    (j i : ℕ)
    (hin : ∀ a, a < n → to0 a < (n : ℤ))
    (hiN : i < n) (hto : to0 i = (j : ℤ))
    (hmax : ∀ a, i < a → a < n → to0 a ≠ (j : ℤ)) :
    ∃ g, seedSegInflow to0 flow n (List.range n) (fun _ => 0) = Except.ok g ∧
      g j = flow i := by
  have hjn : j < n := by
    have := hin i hiN
    omega
  -- the whole loop succeeds
  have hok : exOk (seedSegInflow to0 flow n (List.range n) (fun _ => 0)) = true := by
    rw [seedSegInflow_isOk]
    intro a ha
    exact hin a (List.mem_range.mp ha)
  obtain ⟨g, hg⟩ : ∃ g, seedSegInflow to0 flow n (List.range n) (fun _ => 0)
      = Except.ok g := by
    cases hseed : seedSegInflow to0 flow n (List.range n) (fun _ => 0) with
    | ok g => exact ⟨g, rfl⟩
    | error e => rw [hseed] at hok; simp [exOk] at hok
  refine ⟨g, hg, ?_⟩
  -- split the loop at index i
  have hsplit : List.range n = List.range (i + 1) ++
      (List.range (n - (i + 1))).map ((i + 1) + ·) := by
    rw [← List.range_add]
    congr 1
    omega
  rw [hsplit, seedSegInflow_append] at hg
  cases hfirst : seedSegInflow to0 flow n (List.range (i + 1)) (fun _ => 0) with
  | error e => rw [hfirst] at hg; simp [Except.bind] at hg
  | ok a1 =>
    rw [hfirst] at hg
    simp only [Except.bind] at hg
    -- the tail after i never writes j
    have htail : g j = a1 j := by
      refine seedSegInflow_no_touch to0 flow n j _ a1 g hg ?_
      intro a ha
      obtain ⟨t, ht, rfl⟩ := List.mem_map.mp ha
      have htn : t < n - (i + 1) := List.mem_range.mp ht
      exact hmax (i + 1 + t) (by omega) (by omega)
    -- the prefix ends by assigning flow i to j
    have hstep : List.range (i + 1) = List.range i ++ [i] := List.range_succ i
    rw [hstep, seedSegInflow_append] at hfirst
    cases hpre : seedSegInflow to0 flow n (List.range i) (fun _ => 0) with
    | error e => rw [hpre] at hfirst; simp [Except.bind] at hfirst
    | ok a0 =>
      rw [hpre] at hfirst
      simp only [Except.bind] at hfirst
      have hnotneg : ¬ to0 i < 0 := by omega
      have htoNat : (to0 i).toNat = j := by omega
      simp only [seedSegInflow, hnotneg, htoNat, hjn, if_false, if_true,
        ite_true, ite_false] at hfirst
      have ha1 : a1 = Function.update a0 j (flow i) := (Except.ok.inj hfirst).symm
      rw [htail, ha1]
      simp

/-- C10 witness: three segments, segments 0 and 1 both draining to 2; the
seeded inflow of segment 2 is the initial flow of segment 1 (the larger
index), namely 6. -/
theorem seed_inflow_witness :
    ∃ g, seedSegInflow (fun a => if a = 2 then -1 else 2)
        (fun a => (a : ℚ) + 5) 3 (List.range 3) (fun _ => 0) = Except.ok g ∧
      g 2 = 6 := by
  have h := seed_inflow_is_last_assignment 3 (fun a => if a = 2 then -1 else 2)
    (fun a => (a : ℚ) + 5) 2 1
    (by intro a ha; rcases (by omega : a = 0 ∨ a = 1 ∨ a = 2) with rfl | rfl | rfl <;> norm_num)
    (by norm_num) (by norm_num)
    (by intro a ha1 ha2
        have : a = 2 := by omega
        subst this
        norm_num)
  obtain ⟨g, hg, hval⟩ := h
  refine ⟨g, hg, ?_⟩
  rw [hval]
  norm_num

/-! ### Lateral aggregation (claim C8) -/

/-- Unrolling one HRU from the aggregation loop. -/
theorem lateralAggregate_succ (n : ℕ) (spt : ℚ) (hseg : ℕ → ℤ)
    (sroff ssres gw : ℕ → ℚ) :
    lateralAggregate (n + 1) spt hseg sroff ssres gw =
      lateralStep spt hseg (lateralAggregate n spt hseg sroff ssres gw) n := by
  unfold lateralAggregate
  rw [List.range_succ, List.foldl_append, List.foldl_cons, List.foldl_nil]

/-- An unmapped HRU leaves the lateral-inflow array untouched. -/
theorem lateralStep_lat_neg (spt : ℚ) (hseg : ℕ → ℤ) (st : LateralState)
    (h : ℕ) (hn : hseg h < 0) :
    (lateralStep spt hseg st h).seg_lateral_inflow = st.seg_lateral_inflow := by
  simp [lateralStep, hn]

/-- A mapped HRU adds its volume sum over `s_per_time` to its segment. -/
theorem lateralStep_lat_pos (spt : ℚ) (hseg : ℕ → ℤ) (st : LateralState)
    (h : ℕ) (hn : ¬ hseg h < 0) :
    (lateralStep spt hseg st h).seg_lateral_inflow =
      Function.update st.seg_lateral_inflow (hseg h).toNat
        (st.seg_lateral_inflow (hseg h).toNat +
          (st.sroff_vol h + st.ssres_flow_vol h + st.gwres_flow_vol h) / spt) := by
  simp [lateralStep, hn]

/-- An unmapped HRU zeroes exactly its own entries of the three input
arrays. -/
theorem lateralStep_vols_neg (spt : ℚ) (hseg : ℕ → ℤ) (st : LateralState)
    (h : ℕ) (hn : hseg h < 0) :
    (lateralStep spt hseg st h).sroff_vol = Function.update st.sroff_vol h 0 ∧
    (lateralStep spt hseg st h).ssres_flow_vol =
      Function.update st.ssres_flow_vol h 0 ∧
    (lateralStep spt hseg st h).gwres_flow_vol =
      Function.update st.gwres_flow_vol h 0 := by
  refine ⟨?_, ?_, ?_⟩ <;> simp [lateralStep, hn]

/-- A mapped HRU leaves the three input arrays untouched. -/
theorem lateralStep_vols_pos (spt : ℚ) (hseg : ℕ → ℤ) (st : LateralState)
    (h : ℕ) (hn : ¬ hseg h < 0) :
    (lateralStep spt hseg st h).sroff_vol = st.sroff_vol ∧
    (lateralStep spt hseg st h).ssres_flow_vol = st.ssres_flow_vol ∧
    (lateralStep spt hseg st h).gwres_flow_vol = st.gwres_flow_vol := by
  refine ⟨?_, ?_, ?_⟩ <;> simp [lateralStep, hn]

/-- C8: after the lateral aggregation, every segment's lateral inflow is
the sum of `(sroff + ssres + gwres) / s_per_time` over exactly the HRUs
mapped to it; the three caller-supplied entries of every unmapped HRU are
zeroed; entries of mapped HRUs (and beyond the HRU count) are unchanged. -/
theorem lateral_aggregation_correct (nhru : ℕ) (spt : ℚ) (hseg : ℕ → ℤ)
    (sroff ssres gw : ℕ → ℚ) :
    (∀ s : ℕ,
      (lateralAggregate nhru spt hseg sroff ssres gw).seg_lateral_inflow s =
        ∑ h ∈ Finset.range nhru,
          if hseg h = (s : ℤ) then (sroff h + ssres h + gw h) / spt else 0) ∧
    (∀ h, h < nhru → hseg h < 0 →
      (lateralAggregate nhru spt hseg sroff ssres gw).sroff_vol h = 0 ∧
      (lateralAggregate nhru spt hseg sroff ssres gw).ssres_flow_vol h = 0 ∧
      (lateralAggregate nhru spt hseg sroff ssres gw).gwres_flow_vol h = 0) ∧
    (∀ h, 0 ≤ hseg h ∨ nhru ≤ h →
      (lateralAggregate nhru spt hseg sroff ssres gw).sroff_vol h = sroff h ∧
      (lateralAggregate nhru spt hseg sroff ssres gw).ssres_flow_vol h = ssres h ∧
      (lateralAggregate nhru spt hseg sroff ssres gw).gwres_flow_vol h = gw h) := by
  induction nhru with
  | zero =>
    refine ⟨fun s => by simp [lateralAggregate],
      fun h hh _ => absurd hh (Nat.not_lt_zero h),
      fun h _ => ⟨rfl, rfl, rfl⟩⟩
  | succ n ih =>
    obtain ⟨ihA, ihB, ihC⟩ := ih
    rw [lateralAggregate_succ]
    set st := lateralAggregate n spt hseg sroff ssres gw with hst
    by_cases hn : hseg n < 0
    · obtain ⟨hv1, hv2, hv3⟩ := lateralStep_vols_neg spt hseg st n hn
      refine ⟨fun s => ?_, fun h hh hneg => ?_, fun h hc => ?_⟩
      · rw [lateralStep_lat_neg spt hseg st n hn, ihA s, Finset.sum_range_succ,
          if_neg (by omega), add_zero]
      · rw [hv1, hv2, hv3]
        rcases Nat.lt_succ_iff_lt_or_eq.mp hh with hh | rfl
        · obtain ⟨b1, b2, b3⟩ := ihB h hh hneg
          have hne : h ≠ n := by
            intro hc
            subst hc
            exact Nat.lt_irrefl h hh
          simp only [Function.update_apply, if_neg hne]
          exact ⟨b1, b2, b3⟩
        · simp
      · rw [hv1, hv2, hv3]
        have hne : h ≠ n := by
          rcases hc with hc | hc
          · intro he; subst he; omega
          · omega
        simp only [Function.update_apply, if_neg hne]
        exact ihC h (by omega)
    · obtain ⟨hv1, hv2, hv3⟩ := lateralStep_vols_pos spt hseg st n hn
      have hvols : st.sroff_vol n = sroff n ∧ st.ssres_flow_vol n = ssres n ∧
          st.gwres_flow_vol n = gw n := ihC n (Or.inr le_rfl)
      refine ⟨fun s => ?_, fun h hh hneg => ?_, fun h hc => ?_⟩
      · rw [lateralStep_lat_pos spt hseg st n hn, Function.update_apply,
          Finset.sum_range_succ]
        by_cases hs : s = (hseg n).toNat
        · rw [if_pos hs, hvols.1, hvols.2.1, hvols.2.2, ihA, hs,
            if_pos (by omega)]
        · rw [if_neg hs, ihA s, if_neg (by omega), add_zero]
      · rw [hv1, hv2, hv3]
        have hh' : h < n := by
          rcases Nat.lt_succ_iff_lt_or_eq.mp hh with hh | rfl
          · exact hh
          · omega
        exact ihB h hh' hneg
      · rw [hv1, hv2, hv3]
        exact ihC h (by omega)

/-! ### Muskingum coefficients (claim C6) -/

/-- The final two clamps of the Kcoef computation keep the value in
`[0.01, 24]` whatever came before them. -/
theorem clampBounds (a : ℚ) :
    1 / 100 ≤ (if 24 < (if a < 1 / 100 then (1 : ℚ) / 100 else a) then (24 : ℚ)
      else if a < 1 / 100 then (1 : ℚ) / 100 else a) ∧
    (if 24 < (if a < 1 / 100 then (1 : ℚ) / 100 else a) then (24 : ℚ)
      else if a < 1 / 100 then (1 : ℚ) / 100 else a) ≤ 24 := by
  by_cases h2 : a < 1 / 100
  · rw [if_pos h2]
    norm_num
  · rw [if_neg h2]
    by_cases h3 : 24 < a
    · rw [if_pos h3]
      norm_num
    · rw [if_neg h3]
      constructor <;> linarith [not_lt.mp h2, not_lt.mp h3]

/-- The clamped Kcoef always lies in `[0.01, 24]`. -/
theorem kcoefOf_bounds (v len : ℚ) (lake : Bool) :
    1 / 100 ≤ kcoefOf v len lake ∧ kcoefOf v len lake ≤ 24 :=
  clampBounds (if lake = true then 24 else if 0 < v then len / v else 24)

/-- Every band gives `ts ≥ 1`. -/
theorem tsOf_one_le (k : ℚ) : 1 ≤ tsOf k := by
  unfold tsOf
  split_ifs <;> norm_num

/-- For a clamped Kcoef and any `x ≤ 1/2`, the Muskingum denominator is its
raw value — the `1e-6` degeneracy guard never fires — and it is positive. -/
theorem muskD_eq_of_clamped (k x t : ℚ) (hk1 : 1 / 100 ≤ k) (hx0 : 0 ≤ x)
    (hx : x ≤ 1 / 2) (ht : 1 ≤ t) :
    muskD k x t = k - k * x + t / 2 ∧ 0 < k - k * x + t / 2 := by
  have hkx : 0 ≤ k * (1 / 2 - x) := mul_nonneg (by linarith) (by linarith)
  have hd : (1 : ℚ) / 2 < k - k * x + t / 2 := by nlinarith
  refine ⟨?_, by linarith⟩
  simp only [muskD]
  rw [if_neg]
  rw [abs_of_pos (by linarith)]
  intro hcon
  linarith

/-- The two corrections leave all three coefficients non-negative whenever
`c1` starts non-negative, the total is non-negative, and the two possible
fold-ins stay non-negative. -/
theorem correctCoeffs_nonneg (c0 c1 c2 : ℚ) (h1 : 0 ≤ c1)
    (hsum : 0 ≤ c0 + c1 + c2) (ha : 0 ≤ c1 + c2) (hb : 0 ≤ c1 + c0) :
    0 ≤ (correctCoeffs (c0, c1, c2)).1 ∧
    0 ≤ (correctCoeffs (c0, c1, c2)).2.1 ∧
    0 ≤ (correctCoeffs (c0, c1, c2)).2.2 := by
  simp only [correctCoeffs]
  split_ifs <;> refine ⟨?_, ?_, ?_⟩ <;> (dsimp only; linarith)

/-- Shared core of claims C6 and C1: the corrected per-segment coefficients
are non-negative for every velocity, length and lake flag, whenever
`x ∈ [0, 1/2]`. -/
theorem segmentCoeffs_nonneg (v len x : ℚ) (lake : Bool) (hx0 : 0 ≤ x)
    (hx : x ≤ 1 / 2) :
    0 ≤ (segmentCoeffs v len x lake).1 ∧
    0 ≤ (segmentCoeffs v len x lake).2.1 ∧
    0 ≤ (segmentCoeffs v len x lake).2.2 := by
  have hcc : segmentCoeffs v len x lake =
      correctCoeffs
        (muskC0 (kcoefOf v len lake) x (tsOf (kcoefOf v len lake)),
         muskC1 (kcoefOf v len lake) x (tsOf (kcoefOf v len lake)),
         muskC2 (kcoefOf v len lake) x (tsOf (kcoefOf v len lake))) := rfl
  rw [hcc]
  obtain ⟨hk1, hk2⟩ := kcoefOf_bounds v len lake
  have ht := tsOf_one_le (kcoefOf v len lake)
  obtain ⟨hdeq, hdpos⟩ := muskD_eq_of_clamped (kcoefOf v len lake) x
    (tsOf (kcoefOf v len lake)) hk1 hx0 hx ht
  generalize hkg : kcoefOf v len lake = k at hk1 hk2 ht hdeq hdpos ⊢
  generalize htg : tsOf k = t at ht hdeq hdpos ⊢
  have hxk : 0 ≤ k * x := mul_nonneg (by linarith) hx0
  apply correctCoeffs_nonneg
  · unfold muskC1
    rw [hdeq]
    exact div_nonneg (by linarith) (by linarith)
  · have hnum : muskC0 k x t + muskC1 k x t + muskC2 k x t =
        (k - k * x + t / 2) / muskD k x t := by
      unfold muskC0 muskC1 muskC2
      rw [div_add_div_same, div_add_div_same]
      congr 1
      ring
    rw [hnum, hdeq]
    exact div_nonneg (by linarith) (by linarith)
  · have hnum : muskC1 k x t + muskC2 k x t = k / muskD k x t := by
      unfold muskC1 muskC2
      rw [div_add_div_same]
      congr 1
      ring
    rw [hnum, hdeq]
    exact div_nonneg (by linarith) (by linarith)
  · have hnum : muskC1 k x t + muskC0 k x t = t / muskD k x t := by
      unfold muskC0 muskC1
      rw [div_add_div_same]
      congr 1
      ring
    rw [hnum, hdeq]
    exact div_nonneg (by linarith) (by linarith)

/-- C6: with positive geometry and `x_coef ∈ [0, 1/2]`, the preconditioner's
two corrections leave `c0, c1, c2 ≥ 0` (the geometry hypotheses enter only
through the velocity `v`, over which the statement quantifies). -/
theorem preconditioned_coeffs_nonneg (v len x : ℚ) (lake : Bool)
    (hlen : 0 < len) (hx0 : 0 ≤ x) (hx : x ≤ 1 / 2) :
    0 ≤ (segmentCoeffs v len x lake).1 ∧
    0 ≤ (segmentCoeffs v len x lake).2.1 ∧
    0 ≤ (segmentCoeffs v len x lake).2.2 :=
  segmentCoeffs_nonneg v len x lake hx0 hx

/-- C6 witness: a unit segment with `x = 1/4`. -/
theorem preconditioned_coeffs_nonneg_witness :
    0 ≤ (segmentCoeffs 1 1 (1 / 4) false).1 ∧
    0 ≤ (segmentCoeffs 1 1 (1 / 4) false).2.1 ∧
    0 ≤ (segmentCoeffs 1 1 (1 / 4) false).2.2 :=
  preconditioned_coeffs_nonneg 1 1 (1 / 4) false (by norm_num) (by norm_num)
    (by norm_num)

/-- C8 witness: one HRU mapped outside the network has its three inputs
zeroed. -/
theorem lateral_aggregation_witness :
    (lateralAggregate 1 86400 (fun _ => -1) (fun _ => 1) (fun _ => 2)
      (fun _ => 3)).sroff_vol 0 = 0 ∧
    (lateralAggregate 1 86400 (fun _ => -1) (fun _ => 1) (fun _ => 2)
      (fun _ => 3)).ssres_flow_vol 0 = 0 ∧
    (lateralAggregate 1 86400 (fun _ => -1) (fun _ => 1) (fun _ => 2)
      (fun _ => 3)).gwres_flow_vol 0 = 0 :=
  (lateral_aggregation_correct 1 86400 (fun _ => -1) (fun _ => 1) (fun _ => 2)
    (fun _ => 3)).2.1 0 (by norm_num) (by norm_num)

/-! ### Kernel non-negativity (claim C1) -/

/-- A pointwise-non-negative array stays non-negative under an update with
a non-negative value. -/
theorem update_nonneg {f : ℕ → ℚ} {j : ℕ} {v : ℚ} (hf : ∀ a, 0 ≤ f a)
    (hv : 0 ≤ v) : ∀ a, 0 ≤ Function.update f j v a := by
  intro a
  rw [Function.update_apply]
  split_ifs
  · exact hv
  · exact hf a

/-- The accumulation phase preserves non-negativity. -/
theorem accumPhase_nonneg (p : MuskParams) (st : MuskState) (j : ℕ)
    (hp : NonnegParams p) (hs : NonnegState st) :
    NonnegState (accumPhase p st j) := by
  have hq : 0 ≤ p.seg_lateral_inflow j + st.seg_upstream_inflow j :=
    add_nonneg (hp j).1 (hs j).2.2.2.2.2.2
  intro a
  refine ⟨(hs a).1, (hs a).2.1, ?_, (hs a).2.2.2.1, ?_, ?_,
    (hs a).2.2.2.2.2.2⟩
  · exact update_nonneg (fun b => (hs b).2.2.1)
      (add_nonneg (hs j).2.2.1 hq) a
  · exact update_nonneg (fun b => (hs b).2.2.2.2.1)
      (add_nonneg (hs j).2.2.2.2.1 hq) a
  · exact update_nonneg (fun b => (hs b).2.2.2.2.2.1)
      (add_nonneg (hs j).2.2.2.2.2.1 (hs j).2.2.2.2.2.2) a

/-- The routing phase preserves non-negativity: the sub-step average is a
quotient of non-negatives, and both the Muskingum combination and the
pass-through are non-negative combinations. -/
theorem routePhase_nonneg (p : MuskParams) (ihr : ℕ) (st : MuskState) (j : ℕ)
    (hp : NonnegParams p) (hs : NonnegState st) :
    NonnegState (routePhase p ihr st j) := by
  have havg : 0 ≤ st.inflow_ts j / p.ts j :=
    div_nonneg (hs j).2.2.2.2.1 (hp j).2.1
  unfold routePhase
  split_ifs with hclose htsi
  · intro a
    refine ⟨?_, ?_, (hs a).2.2.1, (hs a).2.2.2.1, ?_, (hs a).2.2.2.2.2.1,
      (hs a).2.2.2.2.2.2⟩
    · exact update_nonneg (fun b => (hs b).1) havg a
    · exact update_nonneg (fun b => (hs b).2.1)
        (add_nonneg (add_nonneg (mul_nonneg havg (hp j).2.2.1)
          (mul_nonneg (hs j).1 (hp j).2.2.2.1))
          (mul_nonneg (hs j).2.1 (hp j).2.2.2.2)) a
    · exact update_nonneg (fun b => (hs b).2.2.2.2.1) le_rfl a
  · intro a
    refine ⟨?_, ?_, (hs a).2.2.1, (hs a).2.2.2.1, ?_, (hs a).2.2.2.2.2.1,
      (hs a).2.2.2.2.2.2⟩
    · exact update_nonneg (fun b => (hs b).1) havg a
    · exact update_nonneg (fun b => (hs b).2.1) havg a
    · exact update_nonneg (fun b => (hs b).2.2.2.2.1) le_rfl a
  · exact hs

/-- The emission phase preserves non-negativity. -/
theorem emitPhase_nonneg (p : MuskParams) (st : MuskState) (j : ℕ)
    (hs : NonnegState st) : NonnegState (emitPhase p st j) := by
  unfold emitPhase
  split_ifs with hto
  · intro a
    refine ⟨(hs a).1, (hs a).2.1, (hs a).2.2.1, ?_, (hs a).2.2.2.2.1,
      (hs a).2.2.2.2.2.1, ?_⟩
    · exact update_nonneg (fun b => (hs b).2.2.2.1)
        (add_nonneg (hs j).2.2.2.1 (hs j).2.1) a
    · exact update_nonneg (fun b => (hs b).2.2.2.2.2.2)
        (add_nonneg (hs ((p.to_segment j).toNat)).2.2.2.2.2.2 (hs j).2.1) a
  · intro a
    refine ⟨(hs a).1, (hs a).2.1, (hs a).2.2.1, ?_, (hs a).2.2.2.2.1,
      (hs a).2.2.2.2.2.1, (hs a).2.2.2.2.2.2⟩
    · exact update_nonneg (fun b => (hs b).2.2.2.1)
        (add_nonneg (hs j).2.2.2.1 (hs j).2.1) a

/-- One inner-loop iteration preserves non-negativity. -/
theorem segStep_nonneg (p : MuskParams) (ihr : ℕ) (st : MuskState) (j : ℕ)
    (hp : NonnegParams p) (hs : NonnegState st) :
    NonnegState (segStep p ihr st j) :=
  emitPhase_nonneg p _ j
    (routePhase_nonneg p ihr _ j hp (accumPhase_nonneg p st j hp hs))

/-- The inner loop over any segment order preserves non-negativity. -/
theorem foldl_segStep_nonneg (p : MuskParams) (ihr : ℕ) (hp : NonnegParams p) :
    ∀ (l : List ℕ) (st : MuskState), NonnegState st →
      NonnegState (List.foldl (fun s j => segStep p ihr s j) st l) := by
  intro l
  induction l with
  | nil => intro st h; exact h
  | cons b rest ih =>
    intro st h
    exact ih _ (segStep_nonneg p ihr st b hp h)

/-- One hourly tick preserves non-negativity. -/
theorem hourStep_nonneg (p : MuskParams) (order : List ℕ) (st : MuskState)
    (ihr : ℕ) (hp : NonnegParams p) (hs : NonnegState st) :
    NonnegState (hourStep p order st ihr) := by
  apply foldl_segStep_nonneg p ihr hp order
  intro a
  refine ⟨(hs a).1, (hs a).2.1, (hs a).2.2.1, (hs a).2.2.2.1,
    (hs a).2.2.2.2.1, (hs a).2.2.2.2.2.1, ?_⟩
  show 0 ≤ st.seg_inflow a * 0
  simp

/-- The whole 24-tick day preserves non-negativity. -/
theorem foldl_hourStep_nonneg (p : MuskParams) (order : List ℕ)
    (hp : NonnegParams p) :
    ∀ (hrs : List ℕ) (st : MuskState), NonnegState st →
      NonnegState (List.foldl (hourStep p order) st hrs) := by
  intro hrs
  induction hrs with
  | nil => intro st h; exact h
  | cons b rest ih =>
    intro st h
    exact ih _ (hourStep_nonneg p order st b hp h)

/-- The routing kernel preserves non-negativity of every output array for
non-negative lateral inflow, parameters and persistent state. -/
theorem muskingumMann_nonneg (p : MuskParams) (order : List ℕ)
    (f0 o0 : ℕ → ℚ) (hp : NonnegParams p) (hf0 : ∀ j, 0 ≤ f0 j)
    (ho0 : ∀ j, 0 ≤ o0 j) :
    NonnegState (muskingumMann p order f0 o0) := by
  have hinit : NonnegState (muskInitState f0 o0) := by
    intro a
    refine ⟨hf0 a, ho0 a, ?_, ?_, ?_, ?_, ?_⟩ <;> (show 0 ≤ f0 a * 0; simp)
  have hfold := foldl_hourStep_nonneg p order hp (List.range 24) _ hinit
  intro a
  refine ⟨(hfold a).1, (hfold a).2.1, ?_, ?_, (hfold a).2.2.2.2.1,
    (hfold a).2.2.2.2.2.1, ?_⟩
  · exact div_nonneg (hfold a).2.2.1 (by norm_num)
  · exact div_nonneg (hfold a).2.2.2.1 (by norm_num)
  · exact div_nonneg (hfold a).2.2.2.2.2.1 (by norm_num)

/-- Parameters built by the preconditioner are non-negative whenever every
`x_coef` lies in `[0, 1/2]` and the lateral inflow is non-negative. -/
theorem routedParams_nonneg (toSeg : ℕ → ℤ) (lat v len x : ℕ → ℚ)
    (lake : ℕ → Bool) (hx : ∀ j, 0 ≤ x j ∧ x j ≤ 1 / 2)
    (hlat : ∀ j, 0 ≤ lat j) :
    NonnegParams (routedParams toSeg lat v len x lake) := by
  intro j
  obtain ⟨hc0, hc1, hc2⟩ := segmentCoeffs_nonneg (v j) (len j) (x j) (lake j)
    (hx j).1 (hx j).2
  exact ⟨hlat j,
    le_trans (by norm_num) (tsOf_one_le (kcoefOf (v j) (len j) (lake j))),
    hc0, hc1, hc2⟩

/-- C1: for every network, every routing order, preconditioned parameters
with `x_coef ∈ [0, 1/2]`, non-negative lateral inflows and non-negative
persistent state, the daily-mean `seg_outflow` of a routing-kernel
invocation is non-negative on every segment. -/
theorem routed_outflow_nonneg (toSeg : ℕ → ℤ) (lat v len x : ℕ → ℚ)
    (lake : ℕ → Bool) (order : List ℕ) (f0 o0 : ℕ → ℚ)
    (hx : ∀ j, 0 ≤ x j ∧ x j ≤ 1 / 2) (hlat : ∀ j, 0 ≤ lat j)
    (hf0 : ∀ j, 0 ≤ f0 j) (ho0 : ∀ j, 0 ≤ o0 j) :
    ∀ i, 0 ≤ (muskingumMann (routedParams toSeg lat v len x lake) order
      f0 o0).seg_outflow i :=
  fun i => (muskingumMann_nonneg _ order f0 o0
    (routedParams_nonneg toSeg lat v len x lake hx hlat) hf0 ho0 i).2.2.2.1

/-- C1 witness: a single outlet segment with unit lateral inflow and cold
state. -/
theorem routed_outflow_nonneg_witness :
    0 ≤ (muskingumMann (routedParams (fun _ => -1) (fun _ => 1) (fun _ => 1)
      (fun _ => 1) (fun _ => 0) (fun _ => false)) [0] (fun _ => 0)
      (fun _ => 0)).seg_outflow 0 :=
  routed_outflow_nonneg (fun _ => -1) (fun _ => 1) (fun _ => 1) (fun _ => 1)
    (fun _ => 0) (fun _ => false) [0] (fun _ => 0) (fun _ => 0)
    (fun _ => ⟨le_rfl, by norm_num⟩) (fun _ => by norm_num) (fun _ => le_rfl)
    (fun _ => le_rfl) 0

/-! ### inflow_ts is drained by the end of the day (claim C7) -/

/-- Hour 24 closes a sub-step for every preconditioned stride: each valid
`tsi` divides 24 under Python floor-mod (including `tsi = -1`). -/
theorem tsiValues_fmod (t : ℤ) (ht : t ∈ tsiValues) : Int.fmod 24 t = 0 := by
  simp only [tsiValues, List.mem_cons, List.not_mem_nil, or_false] at ht
  rcases ht with rfl | rfl | rfl | rfl | rfl | rfl | rfl | rfl | rfl <;> decide

/-- Processing segment `j` leaves `inflow_ts` unchanged elsewhere. -/
theorem segStep_inflow_ts_ne (p : MuskParams) (ihr : ℕ) (st : MuskState)
    (a j : ℕ) (hne : a ≠ j) :
    (segStep p ihr st j).inflow_ts a = st.inflow_ts a := by
  unfold segStep emitPhase routePhase accumPhase
  split_ifs <;> simp [Function.update_apply, hne]

/-- When the hour closes one of segment `j`'s sub-steps, its `inflow_ts`
is reset to zero. -/
theorem segStep_inflow_ts_close (p : MuskParams) (ihr : ℕ) (st : MuskState)
    (j : ℕ) (hclose : Int.fmod ((ihr : ℤ) + 1) (p.tsi j) = 0) :
    (segStep p ihr st j).inflow_ts j = 0 := by
  unfold segStep emitPhase routePhase accumPhase
  split_ifs <;> simp_all [Function.update_apply]

/-- The inner loop never touches `inflow_ts` of a segment outside the
order. -/
theorem foldl_segStep_inflow_ts_not_mem (p : MuskParams) (ihr : ℕ) :
    ∀ (l : List ℕ) (st : MuskState) (a : ℕ), a ∉ l →
      (List.foldl (fun s j => segStep p ihr s j) st l).inflow_ts a =
        st.inflow_ts a := by
  intro l
  induction l with
  | nil => intro st a _; rfl
  | cons b rest ih =>
    intro st a ha
    have hne : a ≠ b := fun h => ha (by rw [h]; exact List.mem_cons_self b rest)
    rw [List.foldl_cons, ih _ a (fun h => ha (List.mem_cons_of_mem b h)),
      segStep_inflow_ts_ne p ihr st a b hne]

/-- An hourly tick never touches `inflow_ts` of a segment outside the
order. -/
theorem hourStep_inflow_ts_not_mem (p : MuskParams) (order : List ℕ)
    (st : MuskState) (ihr : ℕ) (a : ℕ) (ha : a ∉ order) :
    (hourStep p order st ihr).inflow_ts a = st.inflow_ts a := by
  unfold hourStep
  rw [foldl_segStep_inflow_ts_not_mem p ihr order _ a ha]

/-- No tick of the day touches `inflow_ts` of a segment outside the
order. -/
theorem foldl_hourStep_inflow_ts_not_mem (p : MuskParams) (order : List ℕ) :
    ∀ (hrs : List ℕ) (st : MuskState) (a : ℕ), a ∉ order →
      (List.foldl (hourStep p order) st hrs).inflow_ts a = st.inflow_ts a := by
  intro hrs
  induction hrs with
  | nil => intro st a _; rfl
  | cons b rest ih =>
    intro st a ha
    rw [List.foldl_cons, ih _ a ha, hourStep_inflow_ts_not_mem p order st b a ha]

/-- On an hour that closes every segment's sub-step, the inner loop leaves
`inflow_ts` zero on the segments it visits and untouched elsewhere. -/
theorem foldl_segStep_inflow_ts_last (p : MuskParams) (ihr : ℕ)
    (hall : ∀ j, Int.fmod ((ihr : ℤ) + 1) (p.tsi j) = 0) :
    ∀ (l : List ℕ) (st : MuskState) (a : ℕ),
      (List.foldl (fun s j => segStep p ihr s j) st l).inflow_ts a =
        if a ∈ l then 0 else st.inflow_ts a := by
  intro l
  induction l with
  | nil => intro st a; simp
  | cons b rest ih =>
    intro st a
    rw [List.foldl_cons, ih]
    by_cases hmem : a ∈ rest
    · rw [if_pos hmem, if_pos (List.mem_cons_of_mem b hmem)]
    · rw [if_neg hmem]
      by_cases hab : a = b
      · subst hab
        rw [if_pos (List.mem_cons_self a rest),
          segStep_inflow_ts_close p ihr st a (hall a)]
      · rw [segStep_inflow_ts_ne p ihr st a b hab,
          if_neg (by simp [List.mem_cons, hab, hmem])]

/-- C7: when every segment's stride is one of the preconditioner's values
`{-1, 1, 2, 3, 4, 6, 8, 12, 24}`, every routing-kernel invocation ends with
`inflow_ts = 0` on every segment: hour 24 closes each visited segment's last
sub-step (resetting the accumulator), and unvisited segments keep their
zero initialization. -/
theorem inflow_ts_drained (p : MuskParams) (order : List ℕ) (f0 o0 : ℕ → ℚ)
    (htsi : ∀ j, p.tsi j ∈ tsiValues) :
    ∀ j, (muskingumMann p order f0 o0).inflow_ts j = 0 := by
  have hall : ∀ j, Int.fmod (((23 : ℕ) : ℤ) + 1) (p.tsi j) = 0 := by
    intro j
    have h := tsiValues_fmod (p.tsi j) (htsi j)
    have hc : (((23 : ℕ) : ℤ) + 1) = 24 := by norm_num
    rw [hc]
    exact h
  intro j
  show ((List.range 24).foldl (hourStep p order)
    (muskInitState f0 o0)).inflow_ts j = 0
  have h24 : List.range 24 = List.range 23 ++ [23] := List.range_succ 23
  rw [h24, List.foldl_append, List.foldl_cons, List.foldl_nil]
  unfold hourStep
  rw [foldl_segStep_inflow_ts_last p 23 hall order _ j]
  split_ifs with hmem
  · rfl
  · show (List.foldl (hourStep p order) (muskInitState f0 o0)
      (List.range 23)).inflow_ts j = 0
    rw [foldl_hourStep_inflow_ts_not_mem p order (List.range 23) _ j hmem]
    show f0 j * 0 = 0
    exact mul_zero _

/-- C7 witness: both segments of the two-segment example run at hourly
stride and end the day with a drained accumulator. -/
theorem inflow_ts_drained_witness :
    (muskingumMann cexParams [0, 1] (fun _ => 0) (fun _ => 0)).inflow_ts 0 = 0 :=
  inflow_ts_drained cexParams [0, 1] (fun _ => 0) (fun _ => 0)
    (fun _ => by norm_num [cexParams, tsiValues]) 0

/-! ### Topological order and construction failure (claims C4, C5) -/

/-- A vertex returned by `readyNode` is one of the remaining vertices. -/
theorem readyNode_mem (edges : List (ℕ × ℕ)) (rem : List ℕ) (u : ℕ)
    (h : readyNode edges rem = some u) : u ∈ rem :=
  List.mem_of_find?_eq_some h

/-- A vertex returned by `readyNode` has no incoming edge from inside the
remaining set. -/
theorem readyNode_prop (edges : List (ℕ × ℕ)) (rem : List ℕ) (u : ℕ)
    (h : readyNode edges rem = some u) :
    ∀ e ∈ edges, e.2 = u → e.1 ∉ rem := by
  unfold readyNode at h
  have hp := List.find?_some h
  simp only [decide_eq_true_eq] at hp
  exact hp

/-- When no vertex is ready, every remaining vertex has an incoming edge
from inside the remaining set. -/
theorem readyNode_none (edges : List (ℕ × ℕ)) (rem : List ℕ)
    (h : readyNode edges rem = none) :
    ∀ u ∈ rem, ∃ e ∈ edges, e.2 = u ∧ e.1 ∈ rem := by
  intro u hu
  have h1 := List.find?_eq_none.mp h u hu
  have h2 : ¬ ∀ e ∈ edges, e.2 = u → e.1 ∉ rem := by simpa using h1
  push_neg at h2
  obtain ⟨e, he, he2, he1⟩ := h2
  exact ⟨e, he, he2, he1⟩

/-- A successful Kahn run outputs a permutation of the remaining
vertices. -/
theorem topoGo_perm (edges : List (ℕ × ℕ)) :
    ∀ (fuel : ℕ) (rem l : List ℕ),
      topoGo edges fuel rem = some l → l.Perm rem := by
  intro fuel
  induction fuel with
  | zero =>
    intro rem l h
    simp only [topoGo] at h
    split_ifs at h with he
    obtain rfl : l = [] := (Option.some.inj h).symm
    have : rem = [] := by simpa using he
    subst this
    exact List.Perm.refl _
  | succ fuel ih =>
    intro rem l h
    simp only [topoGo] at h
    split_ifs at h with he
    · obtain rfl : l = [] := (Option.some.inj h).symm
      have : rem = [] := by simpa using he
      subst this
      exact List.Perm.refl _
    · cases hr : readyNode edges rem with
      | none => rw [hr] at h; simp at h
      | some u =>
        rw [hr] at h
        simp only [Option.map_eq_some'] at h
        obtain ⟨l', hrec, hl⟩ := h
        subst hl
        have hu := readyNode_mem edges rem u hr
        exact ((ih (rem.erase u) l' hrec).cons u).trans
          (List.perm_cons_erase hu).symm

/-- Along a successful Kahn run, every edge inside the remaining set comes
out with its source strictly before its target. -/
theorem topoGo_indexOf (edges : List (ℕ × ℕ)) :
    ∀ (fuel : ℕ) (rem l : List ℕ),
      topoGo edges fuel rem = some l →
      ∀ e ∈ edges, e.1 ∈ rem → e.2 ∈ rem →
        l.indexOf e.1 < l.indexOf e.2 := by
  intro fuel
  induction fuel with
  | zero =>
    intro rem l h e he h1 h2
    simp only [topoGo] at h
    split_ifs at h with hemp
    have : rem = [] := by simpa using hemp
    subst this
    simp at h1
  | succ fuel ih =>
    intro rem l h e he h1 h2
    simp only [topoGo] at h
    split_ifs at h with hemp
    · have : rem = [] := by simpa using hemp
      subst this
      simp at h1
    · cases hr : readyNode edges rem with
      | none => rw [hr] at h; simp at h
      | some u =>
        rw [hr] at h
        simp only [Option.map_eq_some'] at h
        obtain ⟨l', hrec, hl⟩ := h
        subst hl
        have hready := readyNode_prop edges rem u hr
        have h2u : e.2 ≠ u := fun hc => hready e he hc h1
        by_cases h1u : e.1 = u
        · rw [h1u, List.indexOf_cons_self,
            List.indexOf_cons_ne _ (Ne.symm h2u)]
          exact Nat.succ_pos _
        · have h1' : e.1 ∈ rem.erase u := (List.mem_erase_of_ne h1u).mpr h1
          have h2' : e.2 ∈ rem.erase u := (List.mem_erase_of_ne h2u).mpr h2
          have hlt := ih (rem.erase u) l' hrec e he h1' h2'
          rw [List.indexOf_cons_ne _ (Ne.symm h1u),
            List.indexOf_cons_ne _ (Ne.symm h2u)]
          exact Nat.succ_lt_succ hlt

/-- Every non-empty list of vertices has one minimizing any ranking. -/
theorem list_exists_min_image (f : ℕ → ℕ) :
    ∀ (l : List ℕ), l ≠ [] → ∃ u ∈ l, ∀ a ∈ l, f u ≤ f a := by
  intro l
  induction l with
  | nil => intro h; exact absurd rfl h
  | cons b rest ih =>
    intro _
    by_cases hr : rest = []
    · subst hr
      refine ⟨b, List.mem_cons_self b [], ?_⟩
      intro a ha
      rcases List.mem_cons.mp ha with rfl | ha
      · exact le_rfl
      · simp at ha
    · obtain ⟨u, hu, hmin⟩ := ih hr
      by_cases hub : f u ≤ f b
      · refine ⟨u, List.mem_cons_of_mem b hu, ?_⟩
        intro a ha
        rcases List.mem_cons.mp ha with rfl | ha
        · exact hub
        · exact hmin a ha
      · refine ⟨b, List.mem_cons_self b rest, ?_⟩
        intro a ha
        rcases List.mem_cons.mp ha with rfl | ha
        · exact le_rfl
        · exact le_trans (le_of_not_le hub) (hmin a ha)

/-- Kahn's algorithm succeeds on every vertex set when a strict ranking
certifies acyclicity: the remaining vertex minimizing the rank is always
ready. -/
theorem topoGo_isSome_of_rank (edges : List (ℕ × ℕ)) (f : ℕ → ℕ)
    (hf : ∀ e ∈ edges, f e.1 < f e.2) :
    ∀ (fuel : ℕ) (rem : List ℕ), rem.length ≤ fuel →
      (topoGo edges fuel rem).isSome = true := by
  intro fuel
  induction fuel with
  | zero =>
    intro rem hlen
    have : rem = [] := List.length_eq_zero.mp (Nat.le_zero.mp hlen)
    subst this
    simp [topoGo]
  | succ fuel ih =>
    intro rem hlen
    simp only [topoGo]
    split_ifs with hemp
    · simp
    · have hne : rem ≠ [] := by
        intro hc
        subst hc
        simp at hemp
      cases hr : readyNode edges rem with
      | none =>
        exfalso
        obtain ⟨u, hu, hmin⟩ := list_exists_min_image f rem hne
        obtain ⟨e, he, he2, he1⟩ := readyNode_none edges rem hr u hu
        have hflt := hf e he
        rw [he2] at hflt
        exact absurd (hmin e.1 he1) (not_le.mpr hflt)
      | some u =>
        have hu := readyNode_mem edges rem u hr
        have hpos : 0 < rem.length := List.length_pos.mpr hne
        have hlen' : (rem.erase u).length ≤ fuel := by
          rw [List.length_erase_of_mem hu]
          omega
        have hrec := ih (rem.erase u) hlen'
        simpa using hrec

/-- Both endpoints of every edge are vertices of the graph. -/
theorem edge_mem_nodeList (edges : List (ℕ × ℕ)) (e : ℕ × ℕ)
    (he : e ∈ edges) :
    e.1 ∈ nodeList edges ∧ e.2 ∈ nodeList edges := by
  unfold nodeList
  constructor <;>
  · rw [List.mem_dedup, List.mem_flatMap]
    exact ⟨e, he, by simp⟩

/-- A successful topological sort certifies acyclicity (rank by output
position). -/
theorem topoSort_some_acyclic (edges : List (ℕ × ℕ)) (l : List ℕ)
    (h : topoSort edges = some l) : EdgeAcyclic edges := by
  refine ⟨fun u => l.indexOf u, ?_⟩
  intro e he
  obtain ⟨h1, h2⟩ := edge_mem_nodeList edges e he
  exact topoGo_indexOf edges (nodeList edges).length (nodeList edges) l h e he h1 h2

/-- The topological sort succeeds on every acyclic edge list. -/
theorem topoSort_isSome_of_acyclic (edges : List (ℕ × ℕ))
    (hac : EdgeAcyclic edges) : (topoSort edges).isSome = true := by
  obtain ⟨f, hf⟩ := hac
  exact topoGo_isSome_of_rank edges f hf (nodeList edges).length
    (nodeList edges) le_rfl

/-- C4 (amended): for more than one segment, a computed `segment_order` is
a permutation of exactly the edge-incident segments (isolated segments are
omitted), and every edge's source precedes its target in it. -/
theorem segment_order_topological (n : ℕ) (to0 : ℕ → ℤ) (l : List ℕ)
    (hn : 1 < n) (h : segmentOrderOpt n to0 = some l) :
    l.Perm (nodeList (edgesOf n to0)) ∧
      ∀ e ∈ edgesOf n to0, l.indexOf e.1 < l.indexOf e.2 := by
  rw [segmentOrderOpt, if_pos hn] at h
  unfold topoSort at h
  refine ⟨topoGo_perm _ _ _ l h, fun e he => ?_⟩
  obtain ⟨h1, h2⟩ := edge_mem_nodeList _ e he
  exact topoGo_indexOf _ _ _ l h e he h1 h2

/-- C4 counterexample: two segments that both flow out of the domain (raw
`tosegment = 0`, an acyclic, in-range input).  The graph has no edges, so
networkx sees no vertices at all and `segment_order` comes out empty — not
a permutation of `{0, 1}`; the isolated segments are missing. -/
theorem segment_order_omits_isolated :
    segmentOrderRaw 2 (fun _ => 0) = some [] ∧
      (∀ i, i < 2 → (fun _ => (0 : ℤ)) i - 1 < 2) ∧
      EdgeAcyclic (edgesOf 2 (fun i => (fun _ => (0 : ℤ)) i - 1)) ∧
      ¬ ([] : List ℕ).Perm [0, 1] := by
  refine ⟨by decide, by intro i _; norm_num, ⟨id, fun e he => ?_⟩, by decide⟩
  rw [show edgesOf 2 (fun i => (fun _ => (0 : ℤ)) i - 1) = [] from by decide] at he
  simp at he

/-- C4 witness: the two-segment chain `0 → 1` yields the order `[0, 1]`, a
permutation of its edge-incident vertex list. -/
theorem segment_order_topological_witness :
    List.Perm [0, 1] (nodeList (edgesOf 2 (fun i => if i = 0 then 1 else -1))) :=
  (segment_order_topological 2 (fun i => if i = 0 then 1 else -1) [0, 1]
    (by norm_num) (by decide)).1

/-- Unfolding of the fallible construction. -/
theorem initChannelNet_eq (n : ℕ) (toRaw : ℕ → ℤ) (flowInit : ℕ → ℚ) :
    initChannelNet n toRaw flowInit =
      match segmentOrderOpt n (fun i => toRaw i - 1) with
      | none => Except.error ChannelError.cycleError
      | some order =>
        match seedSegInflow (fun i => toRaw i - 1) flowInit n (List.range n)
            (fun _ => 0) with
        | Except.error e => Except.error e
        | Except.ok inflow => Except.ok (order, inflow) := rfl

/-- C5 (amended): construction succeeds exactly when every rebased
downstream index is below `nsegment` and, in the multi-segment case, the
connectivity is acyclic.  An `nsegment == 1` network skips the topological
sort, so its self-loop is not detected. -/
theorem construction_success_iff (n : ℕ) (toRaw : ℕ → ℤ) (flowInit : ℕ → ℚ) :
    exOk (initChannelNet n toRaw flowInit) = true ↔
      ((1 < n → EdgeAcyclic (edgesOf n (fun i => toRaw i - 1))) ∧
        ∀ i, i < n → toRaw i - 1 < (n : ℤ)) := by
  rw [initChannelNet_eq]
  have hiff := seedSegInflow_isOk (fun i => toRaw i - 1) flowInit n
    (List.range n) (fun _ => 0)
  by_cases hn : 1 < n
  · rw [segmentOrderOpt, if_pos hn]
    cases hts : topoSort (edgesOf n (fun i => toRaw i - 1)) with
    | none =>
      simp only [exOk]
      constructor
      · intro h
        exact absurd h (by simp)
      · rintro ⟨hac, _⟩
        have hsome := topoSort_isSome_of_acyclic _ (hac hn)
        rw [hts] at hsome
        simp at hsome
    | some order =>
      cases hseed : seedSegInflow (fun i => toRaw i - 1) flowInit n
          (List.range n) (fun _ => 0) with
      | error e =>
        rw [hseed] at hiff
        simp only [exOk] at hiff ⊢
        constructor
        · intro h
          exact absurd h (by simp)
        · rintro ⟨_, hrange⟩
          have hall : ∀ i ∈ List.range n, toRaw i - 1 < (n : ℤ) :=
            fun i hi => hrange i (List.mem_range.mp hi)
          exact absurd (hiff.mpr hall) (by simp)
      | ok inflow =>
        rw [hseed] at hiff
        simp only [exOk] at hiff ⊢
        constructor
        · intro _
          refine ⟨fun _ => topoSort_some_acyclic _ order hts, ?_⟩
          intro i hi
          exact (hiff.mp trivial) i (List.mem_range.mpr hi)
        · intro _
          trivial
  · rw [segmentOrderOpt, if_neg hn]
    cases hseed : seedSegInflow (fun i => toRaw i - 1) flowInit n
        (List.range n) (fun _ => 0) with
    | error e =>
      rw [hseed] at hiff
      simp only [exOk] at hiff ⊢
      constructor
      · intro h
        exact absurd h (by simp)
      · rintro ⟨_, hrange⟩
        have hall : ∀ i ∈ List.range n, toRaw i - 1 < (n : ℤ) :=
          fun i hi => hrange i (List.mem_range.mp hi)
        exact absurd (hiff.mpr hall) (by simp)
    | ok inflow =>
      rw [hseed] at hiff
      simp only [exOk] at hiff ⊢
      constructor
      · intro _
        refine ⟨fun h1n => absurd h1n hn, ?_⟩
        intro i hi
        exact (hiff.mp trivial) i (List.mem_range.mpr hi)
      · intro _
        trivial

/-- C5 counterexample: the single-segment self-loop (raw `tosegment = 1`,
rebased `0 → 0`) is a cycle, yet construction succeeds because the
`nsegment > 1` guard skips the topological sort entirely. -/
theorem self_loop_construction_succeeds :
    exOk (initChannelNet 1 selfLoopRaw (fun _ => 0)) = true ∧
      ¬ EdgeAcyclic (edgesOf 1 (fun i => selfLoopRaw i - 1)) := by
  constructor
  · decide
  · rintro ⟨f, hf⟩
    have hmem : ((0 : ℕ), (0 : ℕ)) ∈ edgesOf 1 (fun i => selfLoopRaw i - 1) := by
      decide
    exact absurd (hf (0, 0) hmem) (lt_irrefl _)
